import Mathlib

/-!
Verification of the namespace discovery resolver (HTML meta-tag parser,
recursive HTTP discovery engine, expiring entries cache, caching resolver).

The Go sources are embedded shallowly:
  * `parseHTMLMetaTag`, `parseHTMLHead`, `resolveEntries` follow
    namespace/http_resolver.go; the HTML tokenizer (an external library)
    is abstracted into a stream of `HTMLToken`s.
  * `ExpiringEntriesCache` (Lookup/Store/garbageCollectExpired) and
    `cacheResolver.Resolve` follow the cache source; `time.Now()` becomes an
    explicit `now : Nat` argument, the Go map becomes an association list,
    the `container/list` queue becomes a `List`, and the possibly-nil
    `*list.List` becomes an `Option (List _)` (a method call dereferencing
    the nil pointer is modelled as the `CachePanic` outcome).
  * The scope and entries container operations (`parseScope`, `Contains`,
    `Entries.Add/Remove/Join`) live in a repository file that is not part of
    the sources here; they are modelled from the specification and marked so.
-/

namespace Distribution

/-- Equality of `Except` values is decidable componentwise. -/
instance {ε α : Type} [DecidableEq ε] [DecidableEq α] :
    DecidableEq (Except ε α)
  | .error a, .error b =>
    decidable_of_iff (a = b) ⟨fun h => by rw [h], fun h => by injection h⟩
  | .error _, .ok _ => isFalse (fun h => Except.noConfusion h)
  | .ok _, .error _ => isFalse (fun h => Except.noConfusion h)
  | .ok a, .ok b =>
    decidable_of_iff (a = b) ⟨fun h => by rw [h], fun h => by injection h⟩

/-- Error outcomes of the parser and resolver, one constructor per error kind. -/
inductive Err where
  | invalidScope
  | unsupportedMetaName
  | oneNameAttr
  | unknownAttr
  | noNameAttr
  | scopeArgs
  | missingContent
  | metaTagEmpty
  | unexpectedHead
  | unexpectedElement
  | unexpectedEndTag
  | multipleScopes
  | noEntries
  | nameNotScope
  | transportError
  | httpStatus (code : Nat)
  | fuelExhausted
  deriving DecidableEq, Repr

/-- Modelled from the spec: the action enumeration (`pull`, `push`, `index`,
`namespace`); the constants live in the entries file absent from the sources.
The `namespace` action is spelled `ns` because of the Lean keyword. -/
inductive Action where
  | pull
  | push
  | index
  | ns
  deriving DecidableEq, Repr

/-- Modelled from the spec: sort rank of an action
(order `namespace, index, pull, push`). -/
def actionRank : Action → Nat
  | .ns => 0
  | .index => 1
  | .pull => 2
  | .push => 3

/-- A routing entry `{scope, action, args}` (struct `Entry` of the namespace
package; the definition itself is absent from the sources, shape per spec). -/
structure Entry where
  scope : String
  action : Action
  args : List String
  deriving DecidableEq, Repr

/-- Modelled from the spec: comparison of entries by the deterministic sort
key `(scope ASC, action-rank, args joined)`. -/
def joinArgs (args : List String) : String :=
  String.mk (List.intercalate [' '] (args.map String.data))

/-- Lexicographic comparison of character lists (used for the sort key). -/
def charsLe : List Char → List Char → Bool
  | [], _ => true
  | _ :: _, [] => false
  | c :: cs, d :: ds => c < d || (c = d && charsLe cs ds)

/-- Strict version of `charsLe`. -/
def charsLt (a b : List Char) : Bool :=
  charsLe a b && !(a = b)

def entryLe (a b : Entry) : Bool :=
  charsLt a.scope.data b.scope.data ||
    (a.scope = b.scope &&
      ((actionRank a.action < actionRank b.action) ||
        (actionRank a.action = actionRank b.action &&
          charsLe (joinArgs a.args).data (joinArgs b.args).data)))

/-- The ordered duplicate-free collection of entries. -/
structure Entries where
  entries : List Entry
  deriving DecidableEq, Repr

/-- `NewEntries`: the empty collection. -/
def NewEntries : Entries := ⟨[]⟩

/-- Modelled from the spec: ordered insertion before the first larger element. -/
def insertSorted (e : Entry) : List Entry → List Entry
  | [] => [e]
  | x :: xs => if entryLe x e then x :: insertSorted e xs else e :: x :: xs

/-- Modelled from the spec: `Entries.Add` is a no-op on a duplicate under
`(scope, action, args)` and otherwise inserts preserving sort order. -/
def Entries.Add (es : Entries) (e : Entry) : Entries :=
  if e ∈ es.entries then es else ⟨insertSorted e es.entries⟩

/-- Modelled from the spec: `Entries.Remove` removes the unique duplicate,
a no-op if absent. -/
def Entries.Remove (es : Entries) (e : Entry) : Entries :=
  ⟨es.entries.erase e⟩

/-- Modelled from the spec: `Entries.Join` is set-union honoring the order
and duplicate-freedom invariants (the merge conflict case never arises for
the duplicate-equality used here, so `Join` is total). -/
def Entries.Join (es other : Entries) : Entries :=
  other.entries.foldl Entries.Add es

/-- Whitespace recognizer matching Go `\s` ([\t\n\f\r ]). -/
def isWS (c : Char) : Bool :=
  c = ' ' || c = '\t' || c = '\n' || c = '\r' || c = '\x0c'

/-- `strings.TrimSpace` (written on the character list so that proofs can
evaluate it). -/
def trimWS (s : String) : String :=
  String.mk (((s.data.dropWhile isWS).reverse.dropWhile isWS).reverse)

/-- Splitting a string into the maximal whitespace-free words, accumulating
the current word in reverse. -/
def splitWSAux : List Char → List Char → List String
  | [], acc => if acc.isEmpty then [] else [String.mk acc.reverse]
  | c :: cs, acc =>
    if isWS c then
      if acc.isEmpty then splitWSAux cs []
      else String.mk acc.reverse :: splitWSAux cs []
    else splitWSAux cs (c :: acc)

/-- The content splitting of `parseHTMLMetaTag`: the attribute value is
trimmed and split by the `\s+` regular expression; the single empty token
produced from an empty value is dropped (`args = []string{}`), so the result
is exactly the list of whitespace-separated words. -/
def contentArgs (s : String) : List String :=
  splitWSAux s.data []

/-- Modelled from the spec: `parseScope` trims whitespace and rejects an empty
result or one with a leading or trailing slash (`InvalidScope`); the function
lives in the scope file absent from the sources. -/
def parseScope (s : String) : Except Err String :=
  let t := trimWS s
  if t = "" || ['/'].isPrefixOf t.data || ['/'].isSuffixOf t.data then
    .error .invalidScope
  else .ok t

/-- Modelled from the spec: `scope.Contains(name)` is true iff the name equals
the scope or extends it across a `/` boundary. -/
def Contains (s name : String) : Bool :=
  name = s || (s.data ++ ['/']).isPrefixOf name.data

/-- The meta tag enumeration of http_resolver.go (`htmlMetaTagEnum`); the
`docker-namespace` tag is spelled `nspace`. -/
inductive htmlMetaTagEnum where
  | invalid
  | registryPull
  | registryPush
  | registry
  | scope
  | index
  | nspace
  deriving DecidableEq, Repr

/-- `htmlMetaTagEnum.ToActions` of http_resolver.go: the actions produced by
a meta tag; `docker-registry` yields both pull and push. -/
def htmlMetaTagEnum.ToActions : htmlMetaTagEnum → List Action
  | .registryPull => [.pull]
  | .registryPush => [.push]
  | .index => [.index]
  | .nspace => [.ns]
  | .registry => [.pull, .push]
  | _ => []

/-- `parseHTMLMetaTagName` of http_resolver.go: recognize the trimmed
`name=` attribute value. -/
def parseHTMLMetaTagName (name : String) : Except Err htmlMetaTagEnum :=
  let t := trimWS name
  if t = "docker-scope" then .ok .scope
  else if t = "docker-registry-push" then .ok .registryPush
  else if t = "docker-registry-pull" then .ok .registryPull
  else if t = "docker-registry" then .ok .registry
  else if t = "docker-index" then .ok .index
  else if t = "docker-namespace" then .ok .nspace
  else .error .unsupportedMetaName

/-- The attribute loop of `parseHTMLMetaTag`: state is the recognized tag
(`invalid` until a `name=` attribute is seen), the optional args (Go keeps
the distinction between a nil slice, from an absent `content=`, and an empty
one, from an empty `content=`), and the entries made from the tag's actions. -/
def parseMetaAttrs : List (String × String) → htmlMetaTagEnum →
    Option (List String) → List Entry →
    Except Err (htmlMetaTagEnum × Option (List String) × List Entry)
  | [], tag, args, entries => .ok (tag, args, entries)
  | (a, v) :: rest, tag, args, entries =>
    if a = "name" then
      if tag ≠ .invalid then .error .oneNameAttr
      else
        match parseHTMLMetaTagName v with
        | .error e => .error e
        | .ok t =>
          let acts := t.ToActions
          parseMetaAttrs rest t args
            (if acts.isEmpty then entries
             else acts.map fun act => { scope := "", action := act, args := [] })
    else if a = "content" then
      parseMetaAttrs rest tag (some (contentArgs v)) entries
    else .error .unknownAttr

/-- `parseHTMLMetaTag` of http_resolver.go (the tokenizer is already consumed
into the attribute list): returns either a document scope (for `docker-scope`)
or the entries produced by the tag, with the content args attached. -/
def parseHTMLMetaTag (attrs : List (String × String)) :
    Except Err (Option String × List Entry) :=
  match parseMetaAttrs attrs .invalid none [] with
  | .error e => .error e
  | .ok (tag, args, entries) =>
    if tag = .invalid then .error .noNameAttr
    else if tag = .scope then
      match args with
      | some [a] =>
        match parseScope a with
        | .error e => .error e
        | .ok scp => .ok (some scp, [])
      | _ => .error .scopeArgs
    else if args.isNone && tag ≠ .nspace then .error .missingContent
    else .ok (none, entries.map fun e => { e with args := args.getD [] })

/-- A token of the HTML tokenizer, as consumed by `parseHTMLHead`: start and
self-closing tags behave identically there, so they share a constructor; all
other token kinds (text, comments, doctype) hit the loop's default branch and
are represented by `textToken`; end of input ends the token list. -/
inductive HTMLToken where
  | startTag (name : String) (attrs : List (String × String))
  | endTag (name : String)
  | textToken
  deriving DecidableEq, Repr

/-- The `ParsingLoop` of `parseHTMLHead`: state is the parsed document scope
(Go uses `""` for none), the `readingMetaTags` flag, and the accumulated
entries. A closing `head` tag or end of input terminates the loop. -/
def parseHeadLoop : List HTMLToken → Option String → Bool → Entries →
    Except Err (Option String × Bool × Entries)
  | [], scp, reading, es => .ok (scp, reading, es)
  | .textToken :: rest, scp, reading, es => parseHeadLoop rest scp reading es
  | .endTag n :: rest, scp, reading, es =>
    if n = "head" then .ok (scp, reading, es)
    else if n = "meta" then parseHeadLoop rest scp reading es
    else .error .unexpectedEndTag
  | .startTag n attrs :: rest, scp, reading, es =>
    if n = "head" then
      if reading then .error .unexpectedHead else parseHeadLoop rest scp true es
    else if n = "meta" then
      if attrs = [] then .error .metaTagEmpty
      else
        match parseHTMLMetaTag attrs with
        | .error e => .error e
        | .ok (none, newEntries) =>
          parseHeadLoop rest scp true (newEntries.foldl Entries.Add es)
        | .ok (some s, _) =>
          if scp ≠ none then .error .multipleScopes
          else parseHeadLoop rest (some s) true es
    else .error .unexpectedElement

/-- `parseHTMLHead` of http_resolver.go: run the parsing loop, fail with the
no-entries error when no meta tags were read or no entries were produced,
fall back to the requested name (validated by `parseScope`) when the document
declared no scope, and stamp the resulting scope onto every entry. -/
def parseHTMLHead (doc : List HTMLToken) (name : String) : Except Err Entries :=
  match parseHeadLoop doc none false NewEntries with
  | .error e => .error e
  | .ok (scp?, reading, es) =>
    if !reading || es.entries = [] then .error .noEntries
    else
      match scp? with
      | some s => .ok ⟨es.entries.map fun e => { e with scope := s }⟩
      | none =>
        match parseScope name with
        | .error _ => .error .nameNotScope
        | .ok s => .ok ⟨es.entries.map fun e => { e with scope := s }⟩

/-- `NSResolveActionEnum` of http_resolver.go. -/
inductive NSResolveActionEnum where
  | recurse
  | ignore
  | pass
  deriving DecidableEq, Repr

/-- `HTTPResolverConfig`: the HTTP client is a function from the resolved name
to either a token stream (the body of a 200 response) or an error (transport
failure or non-200 status, as produced in `resolveEntries`); the callback takes
the name being resolved and the extension scope. The unused `ResolverFactory`
field is omitted. -/
structure HTTPResolverConfig where
  client : String → Except Err (List HTMLToken)
  NSResolveCallback : String → String → NSResolveActionEnum
  IgnoreNSDiscoveryErrors : Bool

/-- The default `NSResolveCallback` installed by `NewHTTPResolver`: recurse
into ancestors of the resolved name, ignore every other extension scope. -/
def defaultNSResolveCallback (name nspace : String) : NSResolveActionEnum :=
  if !(Contains nspace name) then .ignore else .recurse

/-- The inner argument loop of the extension handling in `resolveEntries`:
walks one namespace entry's args accumulating the args to remove (callback
said ignore) and the extension names to fetch (callback said recurse and the
arg is not yet visited); an arg equal to the resolved name is left alone. -/
def processNSArgs (cb : String → String → NSResolveActionEnum) (name : String)
    (visited : List String) : List String → List String → List String →
    Except Err (List String × List String)
  | [], toRemove, exts => .ok (toRemove, exts)
  | arg :: rest, toRemove, exts =>
    if arg = name then processNSArgs cb name visited rest toRemove exts
    else
      match parseScope arg with
      | .error e => .error e
      | .ok scp =>
        match cb name scp with
        | .ignore => processNSArgs cb name visited rest (toRemove ++ [arg]) exts
        | .pass => processNSArgs cb name visited rest toRemove exts
        | .recurse =>
          if arg ∈ visited then processNSArgs cb name visited rest toRemove exts
          else processNSArgs cb name visited rest toRemove (exts ++ [arg])

/-- Extension handling for a single namespace entry: filter out the ignored
args and, when no args remain and the callback ignores the empty namespace,
flag the entry for removal. -/
def processNSEntry (cb : String → String → NSResolveActionEnum) (name : String)
    (visited : List String) (e : Entry) :
    Except Err (Entry × Bool × List String) :=
  match processNSArgs cb name visited e.args [] [] with
  | .error er => .error er
  | .ok (toRemove, exts) =>
    let newArgs := e.args.filter fun a => a ∉ toRemove
    let e' := { e with args := newArgs }
    .ok (e', newArgs.isEmpty && cb name "" = .ignore, exts)

/-- The scan over all parsed entries in `resolveEntries`: namespace entries
are processed in place (their args may shrink), entries flagged for removal
and the collected extension names are accumulated in iteration order. -/
def processEntries (cb : String → String → NSResolveActionEnum) (name : String)
    (visited : List String) : List Entry → List Entry → List Entry →
    List String → Except Err (List Entry × List Entry × List String)
  | [], acc, toRemove, exts => .ok (acc, toRemove, exts)
  | e :: rest, acc, toRemove, exts =>
    if e.action = .ns then
      match processNSEntry cb name visited e with
      | .error er => .error er
      | .ok (e', rm, newExts) =>
        processEntries cb name visited rest (acc ++ [e'])
          (if rm then toRemove ++ [e'] else toRemove) (exts ++ newExts)
    else processEntries cb name visited rest (acc ++ [e]) toRemove exts

/-- The complete extension-handling block of `resolveEntries` (scan, then the
`entries.Remove` calls for the flagged entries). -/
def handleExtensions (cfg : HTTPResolverConfig) (name : String)
    (visited : List String) (parsed : Entries) :
    Except Err (Entries × List String) :=
  match processEntries cfg.NSResolveCallback name visited parsed.entries [] [] [] with
  | .error e => .error e
  | .ok (procd, toRemove, exts) =>
    .ok (toRemove.foldl Entries.Remove ⟨procd⟩, exts)

/-- The `visited[name] = struct\x7b\x7d` marking (set insertion). -/
def insertName (visited : List String) (name : String) : List String :=
  if name ∈ visited then visited else visited ++ [name]

/-- The extension loop at the end of `resolveEntries`, parameterized by the
recursive call `rec`: each extension's results merge into the parsed
document's entries; an extension failure aborts unless
`IgnoreNSDiscoveryErrors` is set, in which case the accumulator is kept and
the walk continues (visited and log keep the failed call's updates). -/
def resolveExtsAux (ig : Bool)
    (rec : Entries → List String → List String → String →
      Except Err Entries × List String × List String) :
    Entries → List String → List String → List String →
    Except Err Entries × List String × List String
  | es, visited, log, [] => (.ok es, visited, log)
  | es, visited, log, ext :: rest =>
    match rec es visited log ext with
    | (.ok es1, v1, l1) => resolveExtsAux ig rec es1 v1 l1 rest
    | (.error e, v1, l1) =>
      if ig then resolveExtsAux ig rec es v1 l1 rest
      else (.error e, v1, l1)

/-- `httpResolver.resolveEntries`: fetch the discovery document for `name`,
parse it, handle extensions, mark `name` visited, recurse into the collected
extensions, and join the result into the accumulator. The Go recursion has no
explicit bound; `fuel` bounds the model (large enough fuel is never consumed
on the runs below). The returned triple is the new accumulator (or the error),
the visited set and the log of names handed to the HTTP client's `Get` —
visited-set mutations and performed GETs survive an error, as in Go. -/
def resolveEntries (cfg : HTTPResolverConfig) :
    Nat → Entries → List String → List String → String →
    Except Err Entries × List String × List String
  | 0, _, visited, log, _ => (.error .fuelExhausted, visited, log)
  | fuel + 1, es, visited, log, name =>
    let log1 := log ++ [name]
    match cfg.client name with
    | .error e => (.error e, visited, log1)
    | .ok doc =>
      match parseHTMLHead doc name with
      | .error e => (.error e, visited, log1)
      | .ok parsed =>
        match handleExtensions cfg name visited parsed with
        | .error e => (.error e, visited, log1)
        | .ok (parsed1, exts) =>
          match resolveExtsAux cfg.IgnoreNSDiscoveryErrors
              (fun es' v' l' n' => resolveEntries cfg fuel es' v' l' n')
              parsed1 (insertName visited name) log1 exts with
          | (.error e, v2, l2) => (.error e, v2, l2)
          | (.ok parsed2, v2, l2) => (.ok (es.Join parsed2), v2, l2)

/-- `httpResolver.Resolve`: run `resolveEntries` with a fresh accumulator and
a fresh visited set (the GET log starts empty as well). -/
def Resolve (cfg : HTTPResolverConfig) (fuel : Nat) (name : String) :
    Except Err Entries × List String × List String :=
  resolveEntries cfg fuel NewEntries [] [] name

/-- `cacheEntry` of the entries cache: key, creation time, cached value. -/
structure cacheEntry where
  name : String
  created : Nat
  entries : Entries
  deriving DecidableEq, Repr

/-- Go map read (`entry, exists := sc.cache[name]`) on the association list. -/
def alGet : List (String × cacheEntry) → String → Option cacheEntry
  | [], _ => none
  | p :: m, k => if p.1 = k then some p.2 else alGet m k

/-- Go map `delete`. -/
def alDelete (m : List (String × cacheEntry)) (k : String) :
    List (String × cacheEntry) :=
  m.filter fun p => p.1 ≠ k

/-- Go map assignment (`sc.cache[name] = entry`). -/
def alInsert (m : List (String × cacheEntry)) (k : String) (v : cacheEntry) :
    List (String × cacheEntry) :=
  alDelete m k ++ [(k, v)]

/-- `ExpiringEntriesCache`: map, TTL, size, and the expiration queue; the Go
`*list.List` is nil exactly when the constructor skipped creating it, which is
`Option.none` here. -/
structure ECache where
  cache : List (String × cacheEntry)
  expireAfter : Nat
  size : Int
  expirationQueue : Option (List cacheEntry)
  deriving DecidableEq, Repr

/-- `NewExpiringEntriesCache`: the queue is allocated only for positive size. -/
def NewExpiringEntriesCache (expireAfter : Nat) (size : Int) : ECache :=
  { cache := []
    expireAfter := expireAfter
    size := size
    expirationQueue := if size > 0 then some [] else none }

/-- The sweep loop of `garbageCollectExpired`: pop queue nodes from the front
while they are expired (`created + expireAfter < now`, Go's
`created.Add(expireAfter).Before(now)`), deleting their names from the map. -/
def sweepExpired (expireAfter now : Nat) :
    List cacheEntry → List (String × cacheEntry) →
    List cacheEntry × List (String × cacheEntry)
  | [], m => ([], m)
  | e :: rest, m =>
    if e.created + expireAfter < now then
      sweepExpired expireAfter now rest (alDelete m e.name)
    else (e :: rest, m)

/-- `ExpiringEntriesCache.garbageCollectExpired`: a no-op when the queue is
nil or expiry is disabled, otherwise the front sweep. -/
def garbageCollectExpired (c : ECache) (now : Nat) : ECache :=
  match c.expirationQueue with
  | none => c
  | some q =>
    if c.expireAfter = 0 then c
    else
      let p := sweepExpired c.expireAfter now q c.cache
      { c with cache := p.2, expirationQueue := some p.1 }

/-- `ExpiringEntriesCache.Lookup`: collect expired entries, then read the map.
Returns the found value (if any) and the mutated cache. -/
def Lookup (c : ECache) (now : Nat) (name : String) : Option Entries × ECache :=
  let c1 := garbageCollectExpired c now
  (match alGet c1.cache name with
   | some e => some e.entries
   | none => none,
   c1)

/-- Run-time panics the cache code can hit: calling a method on the nil
queue pointer, or dereferencing the nil element returned by `Front()` on an
empty queue. -/
inductive CachePanic where
  | nilQueue
  | nilElement
  deriving DecidableEq, Repr

/-- The replace-search loop of `Store`: skip nodes while
`created < entry.created or name differs`; remove the node the loop stops at,
if any. -/
def removeMatching (e : cacheEntry) : List cacheEntry → List cacheEntry
  | [] => []
  | x :: xs =>
    if x.created < e.created || x.name ≠ e.name then x :: removeMatching e xs
    else xs

/-- The capacity branch of `Store`: when bounded and full, evict the queue
head (panicking on a nil queue or nil front element, as the Go code would). -/
def storeCapacity (c : ECache) : Except CachePanic ECache :=
  if 0 < c.size ∧ c.size ≤ (c.cache.length : Int) then
    match c.expirationQueue with
    | none => .error .nilQueue
    | some [] => .error .nilElement
    | some (e :: q') =>
      .ok { c with cache := alDelete c.cache e.name, expirationQueue := some q' }
  else .ok c

/-- The final insertion of `Store`: map assignment plus `PushBack` at the queue
tail — on a nil queue `PushBack` dereferences the nil pointer (panic). -/
def storePush (c : ECache) (now : Nat) (name : String) (v : Entries) :
    Except CachePanic ECache :=
  let entry : cacheEntry := { name := name, created := now, entries := v }
  match c.expirationQueue with
  | none => .error .nilQueue
  | some q =>
    .ok { c with cache := alInsert c.cache name entry
                 expirationQueue := some (q ++ [entry]) }

/-- The replace branch of `Store`: when the key is present, delete it from the
map and excise its queue node (`Front()` on the nil queue panics). -/
def storeReplace (c : ECache) (name : String) : Except CachePanic ECache :=
  match alGet c.cache name with
  | some entry =>
    match c.expirationQueue with
    | none => .error .nilQueue
    | some q =>
      .ok { c with cache := alDelete c.cache name
                   expirationQueue := some (removeMatching entry q) }
  | none => .ok c

/-- `ExpiringEntriesCache.Store`: collect expired entries; if the key is
present remove it from the map and excise its node from the queue; evict by
capacity if needed; insert the new entry at the queue tail. -/
def Store (c : ECache) (now : Nat) (name : String) (v : Entries) :
    Except CachePanic ECache :=
  match storeReplace (garbageCollectExpired c now) name with
  | .error p => .error p
  | .ok c2 =>
    match storeCapacity c2 with
    | .error p => .error p
    | .ok c3 => storePush c3 now name v

/-- Errors surfaced by `cacheResolver.Resolve`: an error of the base resolver,
or a cache panic propagating out of `Store`. -/
inductive RErr where
  | base (e : Err)
  | cachePanic (p : CachePanic)
  deriving DecidableEq, Repr

/-- `cacheResolver.Resolve`: lookup, short-circuit on a hit, otherwise consult
the base resolver and store its successful result. The returned Bool records
whether the base resolver was invoked. -/
def cacheResolve (base : String → Except Err Entries) (c : ECache) (now : Nat)
    (name : String) : Except RErr Entries × ECache × Bool :=
  match Lookup c now name with
  | (some es, c1) => (.ok es, c1, false)
  | (none, c1) =>
    match base name with
    | .error e => (.error (.base e), c1, true)
    | .ok v =>
      match Store c1 now name v with
      | .error p => (.error (.cachePanic p), c1, true)
      | .ok c2 => (.ok v, c2, true)

/-- The queue list of a cache (empty for the nil queue). -/
def qOf (c : ECache) : List cacheEntry :=
  c.expirationQueue.getD []

/-- The cache ordering invariants on a map and its queue: map values carry
their key as name, keys are unique, every queue node is the map's binding of
its name, every map binding sits in the queue, node names are unique (each
map entry has exactly one queue node), and the queue is sorted by creation
time (head oldest). -/
abbrev WFq (m : List (String × cacheEntry)) (q : List cacheEntry) : Prop :=
  (∀ p ∈ m, (p : String × cacheEntry).2.name = p.1) ∧
  (m.map Prod.fst).Nodup ∧
  (∀ e ∈ q, alGet m (cacheEntry.name e) = some e) ∧
  (∀ p ∈ m, (p : String × cacheEntry).2 ∈ q) ∧
  (q.map cacheEntry.name).Nodup ∧
  q.Pairwise (fun a b => a.created ≤ b.created)

/-- A well-formed cache: the queue was allocated and the map/queue invariants
hold. -/
def WF (c : ECache) : Prop :=
  match c.expirationQueue with
  | none => False
  | some q => WFq c.cache q

instance (c : ECache) : Decidable (WF c) :=
  match hq : c.expirationQueue with
  | none => isFalse (by simp [WF, hq])
  | some q => decidable_of_iff (WFq c.cache q) (by simp [WF, hq])

/-! Concrete discovery scenarios used to evaluate the resolver. -/

/-- Document of `a.com/b/x`: delegates to both its ancestors. -/
def docTop : List HTMLToken :=
  [.startTag "meta" [("name", "docker-namespace"), ("content", "a.com/b a.com")]]

/-- Document of `a.com/b`: delegates to `a.com`. -/
def docMid : List HTMLToken :=
  [.startTag "meta" [("name", "docker-namespace"), ("content", "a.com")]]

/-- Document of `a.com`: a plain index entry, no delegation. -/
def docRoot : List HTMLToken :=
  [.startTag "meta" [("name", "docker-index"), ("content", "https://i.example/")]]

/-- A client serving the three documents of the diamond-shaped extension
graph `a.com/b/x → \x7ba.com/b, a.com\x7d`, `a.com/b → a.com`. -/
def diamondClient (n : String) : Except Err (List HTMLToken) :=
  if n = "a.com/b/x" then .ok docTop
  else if n = "a.com/b" then .ok docMid
  else if n = "a.com" then .ok docRoot
  else .error .transportError

/-- The diamond scenario under the default (ancestors-recurse) callback. -/
def diamondCfg : HTTPResolverConfig :=
  { client := diamondClient
    NSResolveCallback := defaultNSResolveCallback
    IgnoreNSDiscoveryErrors := false }

/-- Document of `x.com/a`: delegates to the unrelated scope `b.com`. -/
def docForeign : List HTMLToken :=
  [.startTag "meta" [("name", "docker-namespace"), ("content", "b.com")]]

/-- Document of `b.com`: a plain index entry. -/
def docBcom : List HTMLToken :=
  [.startTag "meta" [("name", "docker-index"), ("content", "https://i.b.com/")]]

/-- A client serving `x.com/a` (which delegates to the non-ancestor `b.com`)
and `b.com`. -/
def foreignClient (n : String) : Except Err (List HTMLToken) :=
  if n = "x.com/a" then .ok docForeign
  else if n = "b.com" then .ok docBcom
  else .error .transportError

/-- The non-ancestor scenario under a callback that always answers Recurse. -/
def foreignCfg : HTTPResolverConfig :=
  { client := foreignClient
    NSResolveCallback := fun _ _ => .recurse
    IgnoreNSDiscoveryErrors := false }

/-- A sample cached value. -/
def sampleEntriesA : Entries :=
  ⟨[{ scope := "a.com", action := .index, args := ["https://i.a/"] }]⟩

/-- Another sample cached value. -/
def sampleEntriesB : Entries :=
  ⟨[{ scope := "b.com", action := .pull, args := ["https://r.b/"] }]⟩

/-- A well-formed cache (TTL 1, size 5) holding one entry for `a.com` created
at time 0; at time 5 that entry is expired. -/
def expiredCache : ECache :=
  { cache := [("a.com", { name := "a.com", created := 0, entries := sampleEntriesA })]
    expireAfter := 1
    size := 5
    expirationQueue := some [{ name := "a.com", created := 0, entries := sampleEntriesA }] }

/-- The cache obtained by storing `sampleEntriesA` under `a.com` at time 0 in
a fresh cache with TTL 10 and size 5. -/
def cacheAfterStore : ECache :=
  { cache := [("a.com", { name := "a.com", created := 0, entries := sampleEntriesA })]
    expireAfter := 10
    size := 5
    expirationQueue := some [{ name := "a.com", created := 0, entries := sampleEntriesA }] }

/-- The cache obtained from `cacheAfterStore` by overwriting `a.com` with
`sampleEntriesB` at time 1: the prior queue node is excised and exactly one
node remains. -/
def cacheOverwritten : ECache :=
  { cache := [("a.com", { name := "a.com", created := 1, entries := sampleEntriesB })]
    expireAfter := 10
    size := 5
    expirationQueue := some [{ name := "a.com", created := 1, entries := sampleEntriesB }] }

/-! Association-list facts used by the cache proofs. -/

theorem alGet_mem {m : List (String × cacheEntry)} {k : String} {e : cacheEntry}
    (h : alGet m k = some e) : (k, e) ∈ m := by
  induction m with
  | nil => simp [alGet] at h
  | cons p m ih =>
    obtain ⟨a, b⟩ := p
    by_cases hk : a = k
    · subst hk
      simp [alGet] at h
      subst h
      exact List.mem_cons_self _ _
    · simp [alGet, hk] at h
      exact List.mem_cons_of_mem _ (ih h)

theorem alDelete_cons (p : String × cacheEntry) (m : List (String × cacheEntry))
    (k : String) :
    alDelete (p :: m) k =
      if p.1 = k then alDelete m k else p :: alDelete m k := by
  by_cases hk : p.1 = k <;> simp [alDelete, List.filter_cons, hk]

theorem mem_alDelete {p : String × cacheEntry} {m : List (String × cacheEntry)}
    {k : String} : p ∈ alDelete m k ↔ p ∈ m ∧ p.1 ≠ k := by
  simp [alDelete, List.mem_filter]

theorem alGet_delete_self (m : List (String × cacheEntry)) (k : String) :
    alGet (alDelete m k) k = none := by
  induction m with
  | nil => rfl
  | cons p m ih =>
    by_cases hk : p.1 = k
    · simpa [alDelete, hk] using ih
    · simpa [alDelete, alGet, hk] using ih

theorem alGet_delete_ne {k k' : String} (h : k' ≠ k)
    (m : List (String × cacheEntry)) : alGet (alDelete m k) k' = alGet m k' := by
  induction m with
  | nil => rfl
  | cons p m ih =>
    rw [alDelete_cons]
    by_cases hk : p.1 = k
    · have hne : p.1 ≠ k' := by rw [hk]; exact Ne.symm h
      rw [if_pos hk, ih]
      simp [alGet, hne]
    · rw [if_neg hk]
      by_cases hk' : p.1 = k' <;> simp [alGet, hk', ih]

theorem alGet_delete_none {m : List (String × cacheEntry)} {k k' : String}
    (h : alGet m k' = none) : alGet (alDelete m k) k' = none := by
  by_cases hk : k' = k
  · rw [hk]; exact alGet_delete_self m k
  · rw [alGet_delete_ne hk]; exact h

theorem alGet_append_none {m1 m2 : List (String × cacheEntry)} {k : String}
    (h : alGet m1 k = none) : alGet (m1 ++ m2) k = alGet m2 k := by
  induction m1 with
  | nil => rfl
  | cons p m ih =>
    by_cases hk : p.1 = k
    · simp [alGet, hk] at h
    · simp [alGet, hk] at h ⊢
      exact ih h

theorem alGet_append_some {m1 m2 : List (String × cacheEntry)} {k : String}
    {e : cacheEntry} (h : alGet m1 k = some e) : alGet (m1 ++ m2) k = some e := by
  induction m1 with
  | nil => simp [alGet] at h
  | cons p m ih =>
    by_cases hk : p.1 = k
    · simp [alGet, hk] at h ⊢
      exact h
    · simp [alGet, hk] at h ⊢
      exact ih h

theorem alGet_insert_self (m : List (String × cacheEntry)) (k : String)
    (v : cacheEntry) : alGet (alInsert m k v) k = some v := by
  rw [alInsert, alGet_append_none (alGet_delete_self m k)]
  simp [alGet]

theorem alGet_insert_ne {k k' : String} (h : k' ≠ k)
    (m : List (String × cacheEntry)) (v : cacheEntry) :
    alGet (alInsert m k v) k' = alGet m k' := by
  cases hd : alGet (alDelete m k) k' with
  | none =>
    rw [alInsert, alGet_append_none hd, ← alGet_delete_ne h m, hd]
    have hne : ¬(k = k') := Ne.symm h
    simp [alGet, hne]
  | some e =>
    rw [alInsert, alGet_append_some hd, ← alGet_delete_ne h m, hd]

/-! Preservation of the cache invariants. -/

theorem wfq_delete_node {m : List (String × cacheEntry)} {q : List cacheEntry}
    {x : cacheEntry} (h : WFq m q) (hx : x ∈ q) :
    WFq (alDelete m x.name) (q.erase x) := by
  obtain ⟨h1, h2, h3, h4, h5, h6⟩ := h
  have hqnd : q.Nodup := List.Nodup.of_map _ h5
  refine ⟨?_, ?_, ?_, ?_, ?_, ?_⟩
  · intro p hp
    exact h1 p (mem_alDelete.mp hp).1
  · exact h2.sublist (List.Sublist.map _ (List.filter_sublist m))
  · intro y hy
    obtain ⟨hyx, hyq⟩ := (List.Nodup.mem_erase_iff hqnd).mp hy
    have hname : y.name ≠ x.name :=
      fun hh => hyx (List.inj_on_of_nodup_map h5 hyq hx hh)
    rw [alGet_delete_ne hname]
    exact h3 y hyq
  · intro p hp
    obtain ⟨hpm, hpk⟩ := mem_alDelete.mp hp
    have hpx : p.2 ≠ x := fun hh => hpk (by rw [← h1 p hpm, hh])
    exact (List.Nodup.mem_erase_iff hqnd).mpr ⟨hpx, h4 p hpm⟩
  · exact h5.sublist (List.Sublist.map _ (List.erase_sublist x q))
  · exact h6.sublist (List.erase_sublist x q)

theorem removeMatching_eq_erase {q : List cacheEntry} {x : cacheEntry}
    (h5 : (q.map cacheEntry.name).Nodup) (hx : x ∈ q) :
    removeMatching x q = q.erase x := by
  induction q with
  | nil => rfl
  | cons y rest ih =>
    by_cases hyx : y = x
    · subst hyx
      rw [removeMatching, List.erase_cons_head]
      simp
    · have hxrest : x ∈ rest := by
        rcases List.mem_cons.mp hx with hh | hh
        · exact absurd hh.symm hyx
        · exact hh
      have h5' := h5
      rw [List.map_cons, List.nodup_cons] at h5'
      have hname : y.name ≠ x.name := by
        intro hh
        exact h5'.1 (hh ▸ List.mem_map_of_mem cacheEntry.name hxrest)
      rw [removeMatching, if_pos (by simp [hname]), List.erase_cons_tail,
        ih h5'.2 hxrest]
      simp [hyx]

theorem wfq_sweep {τ now : Nat} : ∀ {q : List cacheEntry}
    {m : List (String × cacheEntry)}, WFq m q →
    WFq (sweepExpired τ now q m).2 (sweepExpired τ now q m).1 ∧
      ∀ y ∈ (sweepExpired τ now q m).1, y ∈ q := by
  intro q
  induction q with
  | nil =>
    intro m h
    exact ⟨h, by simp [sweepExpired]⟩
  | cons e rest ih =>
    intro m h
    rw [sweepExpired]
    by_cases hex : e.created + τ < now
    · rw [if_pos hex]
      have hdel := wfq_delete_node h (List.mem_cons_self e rest)
      rw [List.erase_cons_head] at hdel
      obtain ⟨hw, hs⟩ := ih hdel
      exact ⟨hw, fun y hy => List.mem_cons_of_mem _ (hs y hy)⟩
    · rw [if_neg hex]
      exact ⟨h, fun y hy => hy⟩

theorem sweep_get_none {τ now : Nat} : ∀ {q : List cacheEntry}
    {m : List (String × cacheEntry)} {k : String}, alGet m k = none →
    alGet (sweepExpired τ now q m).2 k = none := by
  intro q
  induction q with
  | nil =>
    intro m k h
    exact h
  | cons e rest ih =>
    intro m k h
    rw [sweepExpired]
    by_cases hex : e.created + τ < now
    · rw [if_pos hex]
      exact ih (alGet_delete_none h)
    · rw [if_neg hex]
      exact h

theorem sweep_keeps {τ now : Nat} : ∀ {q : List cacheEntry}
    {m : List (String × cacheEntry)} {x : cacheEntry},
    (q.map cacheEntry.name).Nodup → x ∈ q → ¬(x.created + τ < now) →
    alGet m x.name = some x →
    alGet (sweepExpired τ now q m).2 x.name = some x := by
  intro q
  induction q with
  | nil =>
    intro m x _ hx
    simp at hx
  | cons e rest ih =>
    intro m x h5 hx hunexp hget
    rw [sweepExpired]
    by_cases hex : e.created + τ < now
    · rw [if_pos hex]
      have hxe : x ≠ e := fun hh => hunexp (hh ▸ hex)
      have hxrest : x ∈ rest := by
        rcases List.mem_cons.mp hx with hh | hh
        · exact absurd hh hxe
        · exact hh
      have h5' := h5
      rw [List.map_cons, List.nodup_cons] at h5'
      have hname : x.name ≠ e.name := by
        intro hh
        exact h5'.1 (hh ▸ List.mem_map_of_mem cacheEntry.name hxrest)
      exact ih h5'.2 hxrest hunexp
        (by rw [alGet_delete_ne hname]; exact hget)
    · rw [if_neg hex]
      exact hget

theorem sweep_deletes {τ now : Nat} : ∀ {q : List cacheEntry}
    {m : List (String × cacheEntry)} {k : String},
    (∀ x ∈ q, x.created + τ < now) → k ∈ q.map cacheEntry.name →
    alGet (sweepExpired τ now q m).2 k = none := by
  intro q
  induction q with
  | nil =>
    intro m k _ hk
    simp at hk
  | cons e rest ih =>
    intro m k hall hk
    rw [sweepExpired, if_pos (hall e (List.mem_cons_self e rest))]
    by_cases hke : k = e.name
    · exact sweep_get_none (hke ▸ alGet_delete_self m e.name)
    · refine ih (fun x hx => hall x (List.mem_cons_of_mem _ hx)) ?_
      rcases (by simpa using hk : k = e.name ∨ k ∈ rest.map cacheEntry.name) with hh | hh
      · exact absurd hh hke
      · exact hh

theorem wfq_insert {m : List (String × cacheEntry)} {q : List cacheEntry}
    {k : String} {t : Nat} {v : Entries} (h : WFq m q)
    (hnone : alGet m k = none) (hmono : ∀ x ∈ q, x.created ≤ t) :
    WFq (alInsert m k { name := k, created := t, entries := v })
      (q ++ [{ name := k, created := t, entries := v }]) := by
  obtain ⟨h1, h2, h3, h4, h5, h6⟩ := h
  have hknotin : ∀ x ∈ q, cacheEntry.name x ≠ k := by
    intro x hx hh
    have hg := h3 x hx
    rw [hh, hnone] at hg
    exact Option.noConfusion hg
  refine ⟨?_, ?_, ?_, ?_, ?_, ?_⟩
  · intro p hp
    rcases List.mem_append.mp hp with hh | hh
    · exact h1 p (mem_alDelete.mp hh).1
    · rw [List.mem_singleton.mp hh]
  · rw [alInsert, List.map_append]
    refine List.nodup_append.mpr ⟨h2.sublist (List.Sublist.map _ (List.filter_sublist m)), by simp, ?_⟩
    intro a ha hb
    obtain ⟨p, hp, hpa⟩ := List.mem_map.mp ha
    rw [List.mem_singleton.mp hb] at hpa
    exact (mem_alDelete.mp hp).2 hpa
  · intro e he
    rcases List.mem_append.mp he with hh | hh
    · rw [alGet_insert_ne (hknotin e hh)]
      exact h3 e hh
    · rw [List.mem_singleton.mp hh]
      exact alGet_insert_self m k _
  · intro p hp
    rcases List.mem_append.mp hp with hh | hh
    · exact List.mem_append.mpr (Or.inl (h4 p (mem_alDelete.mp hh).1))
    · rw [List.mem_singleton.mp hh]
      exact List.mem_append.mpr (Or.inr (List.mem_singleton.mpr rfl))
  · rw [List.map_append]
    refine List.nodup_append.mpr ⟨h5, by simp, ?_⟩
    intro a ha hb
    obtain ⟨x, hx, hxa⟩ := List.mem_map.mp ha
    rw [List.mem_singleton.mp hb] at hxa
    exact hknotin x hx hxa
  · refine List.pairwise_append.mpr ⟨h6, by simp, ?_⟩
    intro a ha b hb
    rw [List.mem_singleton.mp hb]
    exact hmono a ha

theorem qOf_eq {c : ECache} {q : List cacheEntry}
    (h : c.expirationQueue = some q) : qOf c = q := by
  unfold qOf
  rw [h]
  rfl

theorem countP_name_eq_one {q : List cacheEntry} {x : cacheEntry}
    (h5 : (q.map cacheEntry.name).Nodup) (hx : x ∈ q) :
    q.countP (fun y => y.name = x.name) = 1 := by
  induction q with
  | nil => simp at hx
  | cons y rest ih =>
    have h5' := h5
    rw [List.map_cons, List.nodup_cons] at h5'
    rw [List.countP_cons]
    by_cases hyx : y = x
    · subst hyx
      have hz : rest.countP (fun z => z.name = y.name) = 0 := by
        rw [List.countP_eq_zero]
        intro a ha
        simp only [decide_eq_true_eq]
        intro hh
        exact h5'.1 (hh ▸ List.mem_map_of_mem cacheEntry.name ha)
      simp [hz]
    · have hxrest : x ∈ rest := by
        rcases List.mem_cons.mp hx with hh | hh
        · exact absurd hh.symm hyx
        · exact hh
      have hname : ¬(y.name = x.name) := by
        intro hh
        exact h5'.1 (hh ▸ List.mem_map_of_mem cacheEntry.name hxrest)
      rw [ih h5'.2 hxrest]
      simp [hname]

theorem gc_expireAfter (c : ECache) (now : Nat) :
    (garbageCollectExpired c now).expireAfter = c.expireAfter := by
  unfold garbageCollectExpired
  cases hq : c.expirationQueue with
  | none => rfl
  | some q =>
    by_cases hz : c.expireAfter = 0 <;> simp [hz]

theorem wf_gc {c : ECache} (h : WF c) (now : Nat) :
    WF (garbageCollectExpired c now) ∧
      (∀ y ∈ qOf (garbageCollectExpired c now), y ∈ qOf c) ∧
      ∀ k, alGet c.cache k = none →
        alGet (garbageCollectExpired c now).cache k = none := by
  obtain ⟨m, τ, sz, oq⟩ := c
  cases oq with
  | none => exact h.elim
  | some q =>
    have hwfq : WFq m q := h
    simp only [garbageCollectExpired]
    by_cases hz : τ = 0
    · rw [if_pos hz]
      exact ⟨h, fun y hy => hy, fun k hk => hk⟩
    · rw [if_neg hz]
      obtain ⟨hw, hs⟩ := @wfq_sweep τ now q m hwfq
      exact ⟨hw, fun y hy => hs y (by simpa [qOf] using hy),
        fun k hk => sweep_get_none hk⟩

theorem storeReplace_char {c : ECache} {q : List cacheEntry}
    (hq : c.expirationQueue = some q) (hwfq : WFq c.cache q) (k : String) :
    ∃ c2 q2, storeReplace c k = .ok c2 ∧ c2.expirationQueue = some q2 ∧
      WFq c2.cache q2 ∧ alGet c2.cache k = none ∧ (∀ y ∈ q2, y ∈ q) ∧
      c2.expireAfter = c.expireAfter ∧ c2.size = c.size ∧
      c2.cache.length ≤ c.cache.length := by
  unfold storeReplace
  cases hget : alGet c.cache k with
  | none =>
    exact ⟨c, q, rfl, hq, hwfq, hget, fun y hy => hy, rfl, rfl, le_refl _⟩
  | some entry =>
    rw [hq]
    obtain ⟨h1, h2, h3, h4, h5, h6⟩ := hwfq
    have hmem : (k, entry) ∈ c.cache := alGet_mem hget
    have hname : entry.name = k := h1 _ hmem
    have hqe : entry ∈ q := h4 _ hmem
    have hdel := wfq_delete_node ⟨h1, h2, h3, h4, h5, h6⟩ hqe
    rw [hname] at hdel
    refine ⟨_, _, rfl, rfl, ?_, ?_, ?_, rfl, rfl, ?_⟩
    · rw [removeMatching_eq_erase h5 hqe]
      exact hdel
    · exact alGet_delete_self c.cache k
    · rw [removeMatching_eq_erase h5 hqe]
      exact fun y hy => (List.Nodup.mem_erase_iff (List.Nodup.of_map _ h5)).mp hy |>.2
    · exact (List.filter_sublist c.cache).length_le

theorem storeCapacity_char {c : ECache} {q : List cacheEntry}
    (hq : c.expirationQueue = some q) (hwfq : WFq c.cache q) {k : String}
    (hnone : alGet c.cache k = none) :
    ∃ c3 q3, storeCapacity c = .ok c3 ∧ c3.expirationQueue = some q3 ∧
      WFq c3.cache q3 ∧ alGet c3.cache k = none ∧ (∀ y ∈ q3, y ∈ q) ∧
      c3.expireAfter = c.expireAfter := by
  unfold storeCapacity
  by_cases hcap : 0 < c.size ∧ c.size ≤ (c.cache.length : Int)
  · rw [if_pos hcap]
    rw [hq]
    cases hql : q with
    | nil =>
      exfalso
      have hlen : 0 < c.cache.length := by
        by_contra hlen
        have : c.cache.length = 0 := Nat.eq_zero_of_not_pos hlen
        rw [this] at hcap
        omega
      obtain ⟨p, hp⟩ := List.exists_mem_of_length_pos hlen
      have := hwfq.2.2.2.1 p hp
      rw [hql] at this
      simp at this
    | cons e q' =>
      rw [hql] at hq
      have hdel := wfq_delete_node hwfq (by rw [hql]; exact List.mem_cons_self e q')
      rw [hql, List.erase_cons_head] at hdel
      refine ⟨_, _, rfl, rfl, hdel, alGet_delete_none hnone, ?_, rfl⟩
      intro y hy
      exact List.mem_cons_of_mem _ hy
  · rw [if_neg hcap]
    exact ⟨c, q, rfl, hq, hwfq, hnone, fun y hy => hy, rfl⟩

theorem store_ok_char {c : ECache} {t : Nat} {k : String} {v : Entries}
    (hwf : WF c) (hmono : ∀ x ∈ qOf c, x.created ≤ t) :
    ∃ (c' : ECache) (q' : List cacheEntry), Store c t k v = .ok c' ∧ WF c' ∧
      alGet c'.cache k = some (⟨k, t, v⟩ : cacheEntry) ∧
      c'.expirationQueue = some (q' ++ [(⟨k, t, v⟩ : cacheEntry)]) ∧
      (∀ x ∈ q', x.created ≤ t) ∧
      ((q' ++ [(⟨k, t, v⟩ : cacheEntry)]).map cacheEntry.name).Nodup ∧
      c'.expireAfter = c.expireAfter := by
  obtain ⟨hwf1, hsub1, _⟩ := wf_gc hwf t
  have hmono1 : ∀ x ∈ qOf (garbageCollectExpired c t), x.created ≤ t :=
    fun x hx => hmono x (hsub1 x hx)
  unfold WF at hwf1
  cases hq1 : (garbageCollectExpired c t).expirationQueue with
  | none =>
    rw [hq1] at hwf1
    exact hwf1.elim
  | some q1 =>
    rw [hq1] at hwf1
    rw [qOf_eq hq1] at hmono1
    obtain ⟨c2, q2, hre, hq2, hwfq2, hn2, hs2, he2, _, _⟩ :=
      storeReplace_char hq1 hwf1 k
    obtain ⟨c3, q3, hce, hq3, hwfq3, hn3, hs3, he3⟩ :=
      storeCapacity_char hq2 hwfq2 hn2
    have hmono3 : ∀ x ∈ q3, x.created ≤ t :=
      fun x hx => hmono1 x (hs2 x (hs3 x hx))
    have hins := wfq_insert (t := t) (v := v) hwfq3 hn3 hmono3
    refine ⟨⟨alInsert c3.cache k ⟨k, t, v⟩, c3.expireAfter, c3.size,
              some (q3 ++ [⟨k, t, v⟩])⟩,
            q3, ?_, ?_, ?_, rfl, hmono3, ?_, ?_⟩
    · unfold Store
      simp only [hre, hce]
      unfold storePush
      simp only [hq3]
    · exact hins
    · exact alGet_insert_self c3.cache k _
    · exact hins.2.2.2.2.1
    · show c3.expireAfter = c.expireAfter
      rw [he3, he2]
      exact gc_expireAfter c t

theorem lookup_fst (c : ECache) (now : Nat) (k : String) :
    (Lookup c now k).1 =
      (alGet (garbageCollectExpired c now).cache k).map cacheEntry.entries := by
  unfold Lookup
  cases h : alGet (garbageCollectExpired c now).cache k <;> simp [h]

theorem lookup_snd (c : ECache) (now : Nat) (k : String) :
    (Lookup c now k).2 = garbageCollectExpired c now := rfl

theorem gc_cache {m : List (String × cacheEntry)} {τ : Nat} {sz : Int}
    {q : List cacheEntry} (now : Nat) :
    (garbageCollectExpired ⟨m, τ, sz, some q⟩ now).cache =
      if τ = 0 then m else (sweepExpired τ now q m).2 := by
  simp only [garbageCollectExpired]
  by_cases hz : τ = 0 <;> simp [hz]

theorem gc_get_none {c : ECache} {k : String} (now : Nat)
    (h : alGet c.cache k = none) :
    alGet (garbageCollectExpired c now).cache k = none := by
  obtain ⟨m, τ, sz, oq⟩ := c
  cases oq with
  | none => exact h
  | some q =>
    rw [gc_cache]
    by_cases hz : τ = 0
    · rw [if_pos hz]
      exact h
    · rw [if_neg hz]
      exact sweep_get_none h

/-- C3: the spec promises an unbounded cache for a negative size, but on
such a cache (`-1`, the documented unbounded value) the constructor leaves
the expiration queue nil and every `Store` — for any TTL, time, key and
value — dereferences that nil queue in `PushBack` and panics, so nothing can
ever be stored. -/
theorem unbounded_store_panics (τ t : Nat) (k : String) (v : Entries) :
    (NewExpiringEntriesCache τ (-1)).expirationQueue = none ∧
    Store (NewExpiringEntriesCache τ (-1)) t k v = .error .nilQueue := by
  exact ⟨rfl, rfl⟩

/-- C5: after `Store(k, v)` at time `t` on a well-formed cache whose queue
entries were created no later than `t`, a `Lookup(k)` at `t + δ` returns `v`
when the TTL is non-zero and `δ ≤ TTL`, returns absent when the TTL is
non-zero and `δ > TTL`, and returns `v` for every `δ` when the TTL is `0`
(expiry disabled). -/
theorem cache_ttl_lookup {c c' : ECache} {t δ : Nat} {k : String} {v : Entries}
    (hwf : WF c) (hmono : ∀ x ∈ qOf c, x.created ≤ t)
    (hstore : Store c t k v = .ok c') :
    (c.expireAfter ≠ 0 → δ ≤ c.expireAfter → (Lookup c' (t + δ) k).1 = some v) ∧
    (c.expireAfter ≠ 0 → c.expireAfter < δ → (Lookup c' (t + δ) k).1 = none) ∧
    (c.expireAfter = 0 → (Lookup c' (t + δ) k).1 = some v) := by
  obtain ⟨c'', q', heq, hwf', hget, hq', hmq', hnd', hexp⟩ :=
    store_ok_char (t := t) (k := k) (v := v) hwf hmono
  rw [hstore] at heq
  injection heq with heq
  subst heq
  obtain ⟨m', τ', sz', oq'⟩ := c'
  simp only at hq' hget hexp
  subst hq'
  subst hexp
  refine ⟨?_, ?_, ?_⟩
  · intro hne hle
    rw [lookup_fst, gc_cache, if_neg hne]
    rw [sweep_keeps hnd'
      (List.mem_append.mpr (Or.inr (List.mem_singleton.mpr rfl)))
      (by show ¬(t + c.expireAfter < t + δ); omega) hget]
    rfl
  · intro hne hlt
    rw [lookup_fst, gc_cache, if_neg hne]
    rw [sweep_deletes ?_ ?_]
    · rfl
    · intro x hx
      rcases List.mem_append.mp hx with hh | hh
      · have := hmq' x hh
        show x.created + c.expireAfter < t + δ
        omega
      · rw [List.mem_singleton.mp hh]
        show t + c.expireAfter < t + δ
        omega
    · rw [List.map_append]
      exact List.mem_append.mpr (Or.inr (by simp))
  · intro hz
    rw [lookup_fst, gc_cache, if_pos hz, hget]
    rfl

/-- C6: on a well-formed cache every map entry has exactly one queue node;
`Lookup` preserves well-formedness, and a successful `Store` — including one
that overwrites an existing key, whose prior queue node is excised wherever
it sits — preserves it as well and leaves exactly one node carrying the
stored key. -/
theorem cache_ops_preserve_invariant {c c' : ECache} {now : Nat}
    {name : String} {v : Entries} (hwf : WF c)
    (hmono : ∀ x ∈ qOf c, x.created ≤ now) :
    (∀ k e, alGet c.cache k = some e →
      (qOf c).countP (fun x => x.name = k) = 1) ∧
    WF (Lookup c now name).2 ∧
    (Store c now name v = .ok c' →
      WF c' ∧ (qOf c').countP (fun x => x.name = name) = 1) := by
  refine ⟨?_, ?_, ?_⟩
  · intro k e hk
    obtain ⟨m, τ, sz, oq⟩ := c
    cases oq with
    | none => exact hwf.elim
    | some q =>
      obtain ⟨h1, h2, h3, h4, h5, h6⟩ := (hwf : WFq m q)
      have hmem : (k, e) ∈ m := alGet_mem hk
      have hname : e.name = k := h1 _ hmem
      have heq : qOf ⟨m, τ, sz, some q⟩ = q := rfl
      rw [heq]
      subst hname
      exact countP_name_eq_one h5 (h4 _ hmem)
  · rw [lookup_snd]
    exact (wf_gc hwf now).1
  · intro hstore
    obtain ⟨c'', q', heq, hwf', hget, hq', hmq', hnd', hexp⟩ :=
      store_ok_char (t := now) (k := name) (v := v) hwf hmono
    rw [hstore] at heq
    injection heq with heq
    subst heq
    refine ⟨hwf', ?_⟩
    rw [qOf_eq hq']
    have hm : (⟨name, now, v⟩ : cacheEntry) ∈
        q' ++ [(⟨name, now, v⟩ : cacheEntry)] :=
      List.mem_append.mpr (Or.inr (List.mem_singleton.mpr rfl))
    simpa using countP_name_eq_one hnd' hm

/-- C7 counterexample: with base-resolver failure on a miss, the error is
relayed and nothing is stored, but the cache state is not unchanged — the
lookup's expiry sweep already removed an expired entry (key `a.com`), so the
resulting cache differs from the input cache. -/
theorem cache_resolver_state_changed_on_error :
    (cacheResolve (fun _ => .error .transportError) expiredCache 5 "b.com").1 =
      .error (.base .transportError) ∧
    (cacheResolve (fun _ => .error .transportError) expiredCache 5
      "b.com").2.1.cache = [] ∧
    expiredCache.cache =
      [("a.com", { name := "a.com", created := 0, entries := sampleEntriesA })] := by
  exact ⟨rfl, rfl, rfl⟩

/-- C7 amended: `cacheResolver.Resolve` returns the cached value without
invoking the base resolver on a hit; on a miss it invokes the base resolver,
and a base error is returned as-is with nothing stored under any key — the
only cache mutation on that path is the expired-entry sweep performed by the
lookup itself; on base success the value is stored and returned. -/
theorem cache_resolver_amended (base : String → Except Err Entries)
    (c : ECache) (now : Nat) (name : String) :
    (∀ es, (Lookup c now name).1 = some es →
      cacheResolve base c now name = (.ok es, (Lookup c now name).2, false)) ∧
    (∀ e, (Lookup c now name).1 = none → base name = .error e →
      cacheResolve base c now name =
        (.error (.base e), (Lookup c now name).2, true) ∧
      ∀ k, alGet c.cache k = none →
        alGet (cacheResolve base c now name).2.1.cache k = none) ∧
    (∀ v c2, (Lookup c now name).1 = none → base name = .ok v →
      Store (Lookup c now name).2 now name v = .ok c2 →
      cacheResolve base c now name = (.ok v, c2, true)) := by
  refine ⟨?_, ?_, ?_⟩
  · intro es hes
    rcases hP : Lookup c now name with ⟨r, c1⟩
    have hr : r = some es := by rw [hP] at hes; exact hes
    subst hr
    unfold cacheResolve
    rw [hP]
  · intro e hnone herr
    rcases hP : Lookup c now name with ⟨r, c1⟩
    have hr : r = none := by rw [hP] at hnone; exact hnone
    subst hr
    have hc1 : c1 = garbageCollectExpired c now := by
      rw [← lookup_snd c now name, hP]
    have hstep : cacheResolve base c now name =
        (match base name with
         | .error e' => (.error (.base e'), c1, true)
         | .ok v' =>
           match Store c1 now name v' with
           | .error p => (.error (.cachePanic p), c1, true)
           | .ok c2' => (.ok v', c2', true)) := by
      unfold cacheResolve
      rw [hP]
    have hEq : cacheResolve base c now name =
        (.error (.base e), c1, true) := by
      rw [hstep]
      simp only [herr]
    refine ⟨hEq, ?_⟩
    intro k hk
    rw [hEq]
    show alGet c1.cache k = none
    rw [hc1]
    exact gc_get_none now hk
  · intro v c2 hnone hok hst
    rcases hP : Lookup c now name with ⟨r, c1⟩
    have hr : r = none := by rw [hP] at hnone; exact hnone
    subst hr
    have hst' : Store c1 now name v = .ok c2 := by rw [hP] at hst; exact hst
    have hstep : cacheResolve base c now name =
        (match base name with
         | .error e' => (.error (.base e'), c1, true)
         | .ok v' =>
           match Store c1 now name v' with
           | .error p => (.error (.cachePanic p), c1, true)
           | .ok c2' => (.ok v', c2', true)) := by
      unfold cacheResolve
      rw [hP]
    rw [hstep]
    simp only [hok, hst']

/-- C8: `parseHTMLHead` fails with the no-entries error on the empty
document, on a well-formed but empty `head` shell, and on a document whose
only meta tag is a `docker-scope` tag. -/
theorem parse_no_entries_errors :
    parseHTMLHead [] "example.com/no/entries" = .error .noEntries ∧
    parseHTMLHead [.startTag "head" [], .endTag "head"]
      "example.com/no/entries" = .error .noEntries ∧
    parseHTMLHead
      [.startTag "meta" [("name", "docker-scope"), ("content", "example.com")]]
      "example.com/no/entries" = .error .noEntries := by
  exact ⟨rfl, rfl, rfl⟩

/-- C9: a single `docker-registry` meta tag parses to exactly two entries,
one `pull` and one `push`, both carrying the identical args split out of the
tag's content attribute. -/
theorem registry_tag_pull_push (content : String) :
    parseHTMLMetaTag [("name", "docker-registry"), ("content", content)] =
      .ok (none,
        [{ scope := "", action := .pull, args := contentArgs content },
         { scope := "", action := .push, args := contentArgs content }]) := rfl

/-- C10: for the non-namespace tags (`docker-registry`,
`docker-registry-pull`, `docker-registry-push`, `docker-index`) the
missing-content error fires exactly when the `content=` attribute is absent;
a present but empty (or all-whitespace) content is accepted and produces
entries with an empty args list. The `docker-namespace` tag needs no content
at all. -/
theorem content_missing_vs_empty :
    (parseHTMLMetaTag [("name", "docker-registry")] = .error .missingContent ∧
     parseHTMLMetaTag [("name", "docker-registry-pull")] =
       .error .missingContent ∧
     parseHTMLMetaTag [("name", "docker-registry-push")] =
       .error .missingContent ∧
     parseHTMLMetaTag [("name", "docker-index")] = .error .missingContent) ∧
    (parseHTMLMetaTag [("name", "docker-registry"), ("content", "")] =
       .ok (none, [{ scope := "", action := .pull, args := [] },
                   { scope := "", action := .push, args := [] }]) ∧
     parseHTMLMetaTag [("name", "docker-registry-pull"), ("content", " \t ")] =
       .ok (none, [{ scope := "", action := .pull, args := [] }]) ∧
     parseHTMLMetaTag [("name", "docker-registry-push"), ("content", "")] =
       .ok (none, [{ scope := "", action := .push, args := [] }]) ∧
     parseHTMLMetaTag [("name", "docker-index"), ("content", "  ")] =
       .ok (none, [{ scope := "", action := .index, args := [] }]) ∧
     parseHTMLMetaTag [("name", "docker-namespace")] =
       .ok (none, [{ scope := "", action := .ns, args := [] }])) := by
  exact ⟨⟨rfl, rfl, rfl, rfl⟩, ⟨by decide, by decide, by decide, by decide, rfl⟩⟩

/-- C4: a successful `parseHTMLHead` run produces entries that all carry one
single scope — the document's (unique) `docker-scope` value when the parsing
loop extracted one, and otherwise the scope obtained by validating the
requested name with `parseScope` (so the parse fails when the name is not a
valid scope). -/
theorem parse_entries_share_scope (doc : List HTMLToken) (name : String)
    (es : Entries) (h : parseHTMLHead doc name = .ok es) :
    ∃ s, (∀ e ∈ es.entries, e.scope = s) ∧
      ((∃ r es0, parseHeadLoop doc none false NewEntries = .ok (some s, r, es0)) ∨
       ((∃ r es0, parseHeadLoop doc none false NewEntries = .ok (none, r, es0)) ∧
        parseScope name = .ok s)) := by
  unfold parseHTMLHead at h
  cases hL : parseHeadLoop doc none false NewEntries with
  | error e =>
    rw [hL] at h
    simp at h
  | ok triple =>
    obtain ⟨scp?, reading, es0⟩ := triple
    rw [hL] at h
    simp only at h
    by_cases hre : !reading || es0.entries = []
    · rw [if_pos hre] at h
      simp at h
    · rw [if_neg hre] at h
      cases scp? with
      | some s =>
        simp only at h
        injection h with h
        refine ⟨s, ?_, Or.inl ⟨reading, es0, rfl⟩⟩
        intro e he
        rw [← h] at he
        obtain ⟨x, _, hx⟩ := List.mem_map.mp he
        rw [← hx]
      | none =>
        cases hS : parseScope name with
        | error e =>
          rw [hS] at h
          simp at h
        | ok s =>
          rw [hS] at h
          simp only at h
          injection h with h
          refine ⟨s, ?_, Or.inr ⟨⟨reading, es0, rfl⟩, rfl⟩⟩
          intro e he
          rw [← h] at he
          obtain ⟨x, _, hx⟩ := List.mem_map.mp he
          rw [← hx]

/-- Witness for C4 at a concrete document (the index document of `a.com`):
the single parsed entry carries one shared scope, which comes from
validating the requested name since the document has no scope tag. -/
theorem parse_entries_share_scope_witness :
    ∃ s, (∀ e ∈ (⟨[{ scope := "a.com", action := .index,
                     args := ["https://i.example/"] }]⟩ : Entries).entries,
            e.scope = s) ∧
      ((∃ r es0, parseHeadLoop docRoot none false NewEntries =
          .ok (some s, r, es0)) ∨
       ((∃ r es0, parseHeadLoop docRoot none false NewEntries =
          .ok (none, r, es0)) ∧
        parseScope "a.com" = .ok s)) :=
  parse_entries_share_scope docRoot "a.com" _ rfl

/-! Facts about the extension handling of `resolveEntries`. -/

theorem processNSArgs_exts {cb : String → String → NSResolveActionEnum}
    {name : String} {visited : List String} :
    ∀ {args toRemove exts toR' exts'},
      processNSArgs cb name visited args toRemove exts = .ok (toR', exts') →
      ∀ x ∈ exts', x ∈ exts ∨ (x ∉ visited ∧ x ≠ name) := by
  intro args
  induction args with
  | nil =>
    intro toRemove exts toR' exts' h x hx
    simp only [processNSArgs] at h
    have h2 : exts = exts' := by
      injection h with h
      exact congrArg (fun t => t.2) h
    subst h2
    exact Or.inl hx
  | cons arg rest ih =>
    intro toRemove exts toR' exts' h x hx
    simp only [processNSArgs] at h
    by_cases ha : arg = name
    · rw [if_pos ha] at h
      exact ih h x hx
    · rw [if_neg ha] at h
      cases hs : parseScope arg with
      | error e =>
        simp only [hs] at h
        exact Except.noConfusion h
      | ok scp =>
        simp only [hs] at h
        cases hcb : cb name scp with
        | ignore =>
          simp only [hcb] at h
          exact ih h x hx
        | pass =>
          simp only [hcb] at h
          exact ih h x hx
        | recurse =>
          simp only [hcb] at h
          by_cases hv : arg ∈ visited
          · rw [if_pos hv] at h
            exact ih h x hx
          · rw [if_neg hv] at h
            rcases ih h x hx with hin | hnew
            · rcases List.mem_append.mp hin with hin' | hin'
              · exact Or.inl hin'
              · rw [List.mem_singleton.mp hin']
                exact Or.inr ⟨hv, ha⟩
            · exact Or.inr hnew

theorem processNSArgs_exts_mono {cb : String → String → NSResolveActionEnum}
    {name : String} {visited : List String} :
    ∀ {args toRemove exts toR' exts'},
      processNSArgs cb name visited args toRemove exts = .ok (toR', exts') →
      exts ⊆ exts' := by
  intro args
  induction args with
  | nil =>
    intro toRemove exts toR' exts' h
    simp only [processNSArgs] at h
    have h2 : exts = exts' := by
      injection h with h
      exact congrArg (fun t => t.2) h
    subst h2
    exact fun x hx => hx
  | cons arg rest ih =>
    intro toRemove exts toR' exts' h
    simp only [processNSArgs] at h
    by_cases ha : arg = name
    · rw [if_pos ha] at h
      exact ih h
    · rw [if_neg ha] at h
      cases hs : parseScope arg with
      | error e =>
        simp only [hs] at h
        exact Except.noConfusion h
      | ok scp =>
        simp only [hs] at h
        cases hcb : cb name scp with
        | ignore =>
          simp only [hcb] at h
          exact ih h
        | pass =>
          simp only [hcb] at h
          exact ih h
        | recurse =>
          simp only [hcb] at h
          by_cases hv : arg ∈ visited
          · rw [if_pos hv] at h
            exact ih h
          · rw [if_neg hv] at h
            exact fun x hx =>
              ih h (List.mem_append.mpr (Or.inl hx))

theorem processNSEntry_exts {cb : String → String → NSResolveActionEnum}
    {name : String} {visited : List String} {e e' : Entry} {rm : Bool}
    {exts : List String}
    (h : processNSEntry cb name visited e = .ok (e', rm, exts)) :
    ∀ x ∈ exts, x ∉ visited ∧ x ≠ name := by
  unfold processNSEntry at h
  cases hargs : processNSArgs cb name visited e.args [] [] with
  | error er =>
    simp only [hargs] at h
    exact Except.noConfusion h
  | ok pr =>
    obtain ⟨toR, ex⟩ := pr
    simp only [hargs] at h
    have hexts : ex = exts := by
      injection h with h
      exact congrArg (fun t => t.2.2) h
    subst hexts
    intro x hx
    rcases processNSArgs_exts hargs x hx with hin | hnew
    · simp at hin
    · exact hnew

theorem processEntries_exts {cb : String → String → NSResolveActionEnum}
    {name : String} {visited : List String} :
    ∀ {entries acc toRemove exts procd toR' exts'},
      processEntries cb name visited entries acc toRemove exts =
        .ok (procd, toR', exts') →
      ∀ x ∈ exts', x ∈ exts ∨ (x ∉ visited ∧ x ≠ name) := by
  intro entries
  induction entries with
  | nil =>
    intro acc toRemove exts procd toR' exts' h x hx
    simp only [processEntries] at h
    have hexts : exts = exts' := by
      injection h with h
      exact congrArg (fun t => t.2.2) h
    subst hexts
    exact Or.inl hx
  | cons e rest ih =>
    intro acc toRemove exts procd toR' exts' h x hx
    simp only [processEntries] at h
    by_cases he : e.action = .ns
    · rw [if_pos he] at h
      cases hpe : processNSEntry cb name visited e with
      | error er =>
        simp only [hpe] at h
        exact Except.noConfusion h
      | ok tr =>
        obtain ⟨e', rm, newExts⟩ := tr
        simp only [hpe] at h
        rcases ih h x hx with hin | hnew
        · rcases List.mem_append.mp hin with h1 | h1
          · exact Or.inl h1
          · exact Or.inr (processNSEntry_exts hpe x h1)
        · exact Or.inr hnew
    · rw [if_neg he] at h
      exact ih h x hx

theorem handleExtensions_exts {cfg : HTTPResolverConfig} {name : String}
    {visited : List String} {parsed es' : Entries} {exts : List String}
    (h : handleExtensions cfg name visited parsed = .ok (es', exts)) :
    ∀ x ∈ exts, x ∉ visited ∧ x ≠ name := by
  unfold handleExtensions at h
  cases hpe :
      processEntries cfg.NSResolveCallback name visited parsed.entries [] [] []
      with
  | error er =>
    simp only [hpe] at h
    exact Except.noConfusion h
  | ok tr =>
    obtain ⟨procd, toR, ex⟩ := tr
    simp only [hpe] at h
    have hexts : ex = exts := by
      injection h with h
      exact congrArg (fun t => t.2) h
    subst hexts
    intro x hx
    rcases processEntries_exts hpe x hx with hin | hnew
    · simp at hin
    · exact hnew

theorem subset_insertName (v : List String) (n : String) : v ⊆ insertName v n := by
  unfold insertName
  by_cases h : n ∈ v
  · rw [if_pos h]
    exact fun x hx => hx
  · rw [if_neg h]
    exact List.subset_append_left v [n]

theorem mem_insertName_self (v : List String) (n : String) : n ∈ insertName v n := by
  unfold insertName
  by_cases h : n ∈ v
  · rw [if_pos h]
    exact h
  · rw [if_neg h]
    exact List.mem_append.mpr (Or.inr (List.mem_singleton.mpr rfl))

theorem resolveExtsAux_mono (ig : Bool)
    (rec : Entries → List String → List String → String →
      Except Err Entries × List String × List String)
    (hrec : ∀ es v l n, v ⊆ (rec es v l n).2.1) :
    ∀ exts es v l, v ⊆ (resolveExtsAux ig rec es v l exts).2.1 := by
  intro exts
  induction exts with
  | nil =>
    intro es v l
    exact fun x hx => hx
  | cons ext rest ih =>
    intro es v l
    show v ⊆ (resolveExtsAux ig rec es v l (ext :: rest)).2.1
    simp only [resolveExtsAux]
    split
    next es1 v1 l1 hre =>
      have hsub1 : v ⊆ v1 := by
        have := hrec es v l ext
        rw [hre] at this
        exact this
      exact hsub1.trans (ih es1 v1 l1)
    next e v1 l1 hre =>
      have hsub1 : v ⊆ v1 := by
        have := hrec es v l ext
        rw [hre] at this
        exact this
      by_cases hig : ig = true
      · rw [if_pos hig]
        exact hsub1.trans (ih es v1 l1)
      · rw [if_neg hig]
        exact hsub1

theorem resolve_mono : ∀ (fuel : Nat) (cfg : HTTPResolverConfig) es v l n,
    v ⊆ (resolveEntries cfg fuel es v l n).2.1 ∧
    ∀ es', (resolveEntries cfg fuel es v l n).1 = .ok es' →
      n ∈ (resolveEntries cfg fuel es v l n).2.1 := by
  intro fuel
  induction fuel with
  | zero =>
    intro cfg es v l n
    exact ⟨fun x hx => hx, fun es' h => by simp [resolveEntries] at h⟩
  | succ fuel ih =>
    intro cfg es v l n
    simp only [resolveEntries]
    split
    next e heq => exact ⟨fun x hx => hx, fun es' h => by simp at h⟩
    next doc heq =>
      split
      next e heq2 => exact ⟨fun x hx => hx, fun es' h => by simp at h⟩
      next parsed heq2 =>
        split
        next e heq3 => exact ⟨fun x hx => hx, fun es' h => by simp at h⟩
        next parsed1 exts heq3 =>
          have hrec : ∀ es2 v2 l2 n2,
              v2 ⊆ (resolveEntries cfg fuel es2 v2 l2 n2).2.1 :=
            fun es2 v2 l2 n2 => (ih cfg es2 v2 l2 n2).1
          split
          next e v2 l2 hrx =>
            have hsub : insertName v n ⊆ v2 := by
              have := resolveExtsAux_mono cfg.IgnoreNSDiscoveryErrors
                (fun es' v' l' n' => resolveEntries cfg fuel es' v' l' n')
                hrec exts parsed1 (insertName v n) (l ++ [n])
              rw [hrx] at this
              exact this
            exact ⟨(subset_insertName v n).trans hsub,
              fun es' h => by simp at h⟩
          next parsed2 v2 l2 hrx =>
            have hsub : insertName v n ⊆ v2 := by
              have := resolveExtsAux_mono cfg.IgnoreNSDiscoveryErrors
                (fun es' v' l' n' => resolveEntries cfg fuel es' v' l' n')
                hrec exts parsed1 (insertName v n) (l ++ [n])
              rw [hrx] at this
              exact this
            exact ⟨(subset_insertName v n).trans hsub,
              fun es' _ => hsub (mem_insertName_self v n)⟩

/-- C1 counterexample: in the diamond-shaped extension graph served by
`diamondClient`, a single top-level Resolve of `a.com/b/x` under the default
callback performs two GETs for `a.com` (it is collected into two extension
lists before being marked visited), refuting at-most-once-per-name; the
resolve nevertheless succeeds. -/
theorem resolver_refetch_counterexample :
    (Resolve diamondCfg 10 "a.com/b/x").2.2 =
      ["a.com/b/x", "a.com/b", "a.com", "a.com"] ∧
    (Resolve diamondCfg 10 "a.com/b/x").2.2.count "a.com" = 2 ∧
    (∃ es, (Resolve diamondCfg 10 "a.com/b/x").1 = .ok es) ∧
    diamondCfg.NSResolveCallback = defaultNSResolveCallback := by
  exact ⟨rfl, by decide, ⟨_, rfl⟩, rfl⟩

/-- C1 amended: the extension names collected while scanning a document are
never already-visited names (nor the name being resolved) — such extensions
are neither re-fetched on the document's account nor re-added — and every
call to `resolveEntries` only grows the visited set, adding its own name to
it on success before the recursion returns. The HTTP client may still be
invoked more than once for a name reached along two paths before being
marked visited. -/
theorem resolver_visited_guarantee :
    (∀ (cfg : HTTPResolverConfig) (name : String) (visited : List String)
        (parsed es' : Entries) (exts : List String),
      handleExtensions cfg name visited parsed = .ok (es', exts) →
      ∀ x ∈ exts, x ∉ visited ∧ x ≠ name) ∧
    (∀ (fuel : Nat) (cfg : HTTPResolverConfig) (es : Entries)
        (v l : List String) (n : String),
      v ⊆ (resolveEntries cfg fuel es v l n).2.1 ∧
      ∀ es', (resolveEntries cfg fuel es v l n).1 = .ok es' →
        n ∈ (resolveEntries cfg fuel es v l n).2.1) :=
  ⟨fun _ _ _ _ _ _ h => handleExtensions_exts h, resolve_mono⟩

/-- Witness for C1 at the diamond scenario: the extensions collected from the
top document avoid the pre-visited set, and the resolved name lands in the
visited set of its own successful resolution. -/
theorem resolver_visited_guarantee_witness :
    ("a.com/b" ∉ (["seen.com"] : List String) ∧ "a.com/b" ≠ "a.com/b/x") ∧
    "a.com/b/x" ∈ (resolveEntries diamondCfg 10 NewEntries [] [] "a.com/b/x").2.1 :=
  ⟨resolver_visited_guarantee.1 diamondCfg "a.com/b/x" ["seen.com"]
      ⟨[{ scope := "a.com/b/x", action := .ns, args := ["a.com/b", "a.com"] }]⟩
      _ _ rfl "a.com/b" (by decide),
   (resolver_visited_guarantee.2 10 diamondCfg NewEntries [] [] "a.com/b/x").2
      _ rfl⟩

/-- C2 counterexample: the callback of `foreignCfg` answers Recurse for the
extension scope `b.com`, which does not contain the resolved name `x.com/a`;
the resolver does not fail with an invalid-extension error — the resolve
succeeds and the foreign extension is fetched and merged. -/
theorem recurse_nonancestor_counterexample :
    Contains "b.com" "x.com/a" = false ∧
    foreignCfg.NSResolveCallback "x.com/a" "b.com" = .recurse ∧
    (∃ es, (Resolve foreignCfg 5 "x.com/a").1 = .ok es) := by
  exact ⟨rfl, rfl, ⟨_, rfl⟩⟩

/-- C2 amended: when the callback answers Recurse for a (valid, unvisited)
extension arg different from the resolved name, the arg is collected into the
extensions list to be fetched recursively, with no containment check and no
invalid-extension failure inside `resolveEntries`; the strict ancestry check
lives outside this code path. -/
theorem recurse_extension_collected
    (cb : String → String → NSResolveActionEnum) (name : String)
    (visited : List String) (arg scp : String)
    (hne : arg ≠ name) (hs : parseScope arg = .ok scp)
    (hcb : cb name scp = .recurse) (hnv : arg ∉ visited) :
    ∀ args toRemove exts toR' exts',
      arg ∈ args →
      processNSArgs cb name visited args toRemove exts = .ok (toR', exts') →
      arg ∈ exts' := by
  intro args
  induction args with
  | nil =>
    intro toRemove exts toR' exts' hmem _
    simp at hmem
  | cons a rest ih =>
    intro toRemove exts toR' exts' hmem h
    simp only [processNSArgs] at h
    by_cases ha : a = arg
    · subst ha
      rw [if_neg hne] at h
      simp only [hs, hcb] at h
      rw [if_neg hnv] at h
      exact processNSArgs_exts_mono h
        (List.mem_append.mpr (Or.inr (List.mem_singleton.mpr rfl)))
    · have hmem' : arg ∈ rest := by
        rcases List.mem_cons.mp hmem with hh | hh
        · exact absurd hh.symm ha
        · exact hh
      by_cases han : a = name
      · rw [if_pos han] at h
        exact ih toRemove exts toR' exts' hmem' h
      · rw [if_neg han] at h
        cases hsa : parseScope a with
        | error e =>
          simp only [hsa] at h
          exact Except.noConfusion h
        | ok scpa =>
          simp only [hsa] at h
          cases hcba : cb name scpa with
          | ignore =>
            simp only [hcba] at h
            exact ih _ _ _ _ hmem' h
          | pass =>
            simp only [hcba] at h
            exact ih _ _ _ _ hmem' h
          | recurse =>
            simp only [hcba] at h
            by_cases hav : a ∈ visited
            · rw [if_pos hav] at h
              exact ih _ _ _ _ hmem' h
            · rw [if_neg hav] at h
              exact ih _ _ _ _ hmem' h

/-- Witness for C2: the non-ancestor arg `b.com` of a namespace entry of
`x.com/a` is collected into the extensions list by an always-Recurse
callback. -/
theorem recurse_extension_collected_witness :
    ("b.com" ≠ "x.com/a" ∧ parseScope "b.com" = .ok "b.com" ∧
      Contains "b.com" "x.com/a" = false) ∧
    processNSArgs (fun _ _ => .recurse) "x.com/a" [] ["b.com"] [] [] =
      .ok ([], ["b.com"]) ∧
    "b.com" ∈ (["b.com"] : List String) :=
  ⟨⟨by decide, rfl, rfl⟩, rfl,
    recurse_extension_collected (fun _ _ => .recurse) "x.com/a" [] "b.com"
      "b.com" (by decide) rfl rfl (by decide) ["b.com"] [] [] [] ["b.com"]
      (by decide) rfl⟩

/-- Witness for C5: storing into the fresh TTL-10 cache at time 0, a lookup
at time 3 hits and a lookup at time 11 misses. -/
theorem cache_ttl_lookup_witness :
    WF (NewExpiringEntriesCache 10 5) ∧
    Store (NewExpiringEntriesCache 10 5) 0 "a.com" sampleEntriesA =
      .ok cacheAfterStore ∧
    (Lookup cacheAfterStore (0 + 3) "a.com").1 = some sampleEntriesA ∧
    (Lookup cacheAfterStore (0 + 11) "a.com").1 = none :=
  ⟨by decide, rfl,
   (@cache_ttl_lookup (NewExpiringEntriesCache 10 5) cacheAfterStore 0 3
      "a.com" sampleEntriesA (by decide) (by decide) rfl).1 (by decide)
     (by decide),
   (@cache_ttl_lookup (NewExpiringEntriesCache 10 5) cacheAfterStore 0 11
      "a.com" sampleEntriesA (by decide) (by decide) rfl).2.1 (by decide)
     (by decide)⟩

/-- Witness for C6: overwriting the key `a.com` preserves well-formedness and
leaves exactly one queue node for it. -/
theorem cache_ops_preserve_invariant_witness :
    WF cacheAfterStore ∧
    Store cacheAfterStore 1 "a.com" sampleEntriesB = .ok cacheOverwritten ∧
    WF cacheOverwritten ∧
    (qOf cacheOverwritten).countP (fun x => x.name = "a.com") = 1 :=
  ⟨by decide, rfl,
   ((@cache_ops_preserve_invariant cacheAfterStore cacheOverwritten 1 "a.com"
      sampleEntriesB (by decide) (by decide)).2.2 rfl).1,
   ((@cache_ops_preserve_invariant cacheAfterStore cacheOverwritten 1 "a.com"
      sampleEntriesB (by decide) (by decide)).2.2 rfl).2⟩

/-- Witness for C7 at the miss-with-base-error scenario: the base error is
relayed, the final cache is exactly the one produced by the lookup's sweep,
and no key was added. -/
theorem cache_resolver_amended_witness :
    (Lookup expiredCache 5 "b.com").1 = none ∧
    cacheResolve (fun _ => .error .transportError) expiredCache 5 "b.com" =
      (.error (.base .transportError), (Lookup expiredCache 5 "b.com").2, true) ∧
    alGet (cacheResolve (fun _ => .error .transportError) expiredCache 5
      "b.com").2.1.cache "b.com" = none :=
  ⟨rfl,
   ((cache_resolver_amended (fun _ => .error .transportError) expiredCache 5
      "b.com").2.1 .transportError rfl rfl).1,
   ((cache_resolver_amended (fun _ => .error .transportError) expiredCache 5
      "b.com").2.1 .transportError rfl rfl).2 "b.com" rfl⟩

end Distribution
